import Mathlib

/-!
Verification of the Huffman file-compressor core (src/huffman.cpp).

The C++ code is shallowly embedded: byte buffers become `List Nat`
(each element a byte value `< 256`), the on-disk streams become
`List Nat` of byte values, `std::string` bit strings of the characters
zero and one become `List Bool` (`false` = the character zero, i.e. a
step to the left child), and `std::unordered_map` becomes an
association list in insertion order.  Operations whose C++ original can
hit undefined behaviour (popping the top of an empty `priority_queue`,
following a null child pointer) return `Option` and model the
undefined execution as `none`.
-/

namespace Huffman

/-- Mirror of `struct Node`: `leaf c f` is `Node(c, f)` (both child
pointers null), `node f l r` is `Node('\0', f, l, r)` as built by
`buildHuffmanTree`, whose children are always non-null nodes popped
from the heap.  The unused `'\0'` character of internal nodes is
dropped. -/
inductive Node where
  | leaf : Nat → Nat → Node
  | node : Nat → Node → Node → Node
deriving DecidableEq, Repr

/-- `n->freq`. -/
def Node.freq : Node → Nat
  | .leaf _ f => f
  | .node f _ _ => f

/-- Whether the node is an internal node (both children non-null). -/
def Node.isInternal : Node → Bool
  | .leaf _ _ => false
  | .node _ _ _ => true

/-- The characters of the leaves of a tree, left to right. -/
def Node.leafChars : Node → List Nat
  | .leaf c _ => [c]
  | .node _ l r => l.leafChars ++ r.leafChars

/-- Model-level helper: the leaf characters of all trees held in a
queue, in queue order. -/
def leavesOf : List Node → List Nat
  | [] => []
  | n :: t => n.leafChars ++ leavesOf t

/-- One step of `freqMap[ch]++` on the insertion-order association
list: bump the existing entry, or append a fresh entry with count 1. -/
def bumpFreq : List (Nat × Nat) → Nat → List (Nat × Nat)
  | [], c => [(c, 1)]
  | (k, v) :: rest, c =>
      if k = c then (k, v + 1) :: rest else (k, v) :: bumpFreq rest c

/-- `buildFrequencyMap`: count occurrences of each byte of the text. -/
def buildFrequencyMap (text : List Nat) : List (Nat × Nat) :=
  text.foldl bumpFreq []

/-- Pop a node of minimal `freq` from the queue.  The C++
`priority_queue` with `Compare` is a min-heap on `freq` whose order
between equal frequencies is unspecified; this model fixes the
deterministic tie-break "first minimal element in queue order".  Note
that even so, the pop order for equal frequencies depends on the
queue's insertion order, which is the iteration order of the
surrounding `unordered_map` — an order C++ leaves unspecified and
that differs between the compress-side map and the decompress-side
rebuild (see the C3 theorem). -/
def popMin : List Node → Option (Node × List Node)
  | [] => none
  | [n] => some (n, [])
  | n :: ns =>
      match popMin ns with
      | none => some (n, [])
      | some (m, rest) =>
          if n.freq ≤ m.freq then some (n, ns) else some (m, n :: rest)

/-- The `while (minHeap.size() > 1)` loop of `buildHuffmanTree`,
written with explicit fuel so that it is structurally recursive; fuel
equal to the initial heap size is always sufficient since every
iteration shrinks the heap by one.  An empty heap models the C++
`minHeap.top()` on an empty queue (undefined behaviour) as `none`. -/
def buildLoop : Nat → List Node → Option Node
  | _, [] => none
  | _, [n] => some n
  | 0, _ :: _ :: _ => none
  | fuel + 1, a :: b :: t =>
      match popMin (a :: b :: t) with
      | none => none
      | some (n1, rest1) =>
          match popMin rest1 with
          | none => none
          | some (n2, rest2) =>
              buildLoop fuel (rest2 ++ [Node.node (n1.freq + n2.freq) n1 n2])

/-- `buildHuffmanTree`: one leaf per map entry, then merge the two
minimal nodes until one remains. -/
def buildHuffmanTree (m : List (Nat × Nat)) : Option Node :=
  buildLoop m.length (m.map fun p => Node.leaf p.1 p.2)

/-- `generateCodes`: depth-first walk; at a leaf record the
accumulated path (`'0'`/`false` = left).  The result list is in the
traversal order in which the C++ fills `huffmanCode`. -/
def generateCodes : Node → List Bool → List (Nat × List Bool)
  | .leaf c _, path => [(c, path)]
  | .node _ l r, path =>
      generateCodes l (path ++ [false]) ++ generateCodes r (path ++ [true])

/-- `encodeText`: concatenate the codes of the input bytes.  The C++
uses `huffmanCode.at(ch)`, which never misses because the table was
generated from the same text's frequencies; a missing key is modelled
as the empty code. -/
def encodeText (text : List Nat) (codes : List (Nat × List Bool)) : List Bool :=
  match text with
  | [] => []
  | c :: cs => ((codes.lookup c).getD []) ++ encodeText cs codes

/-- The two bytes of a `uint16_t` as written by `outFile.write` on a
little-endian machine. -/
def u16le (n : Nat) : List Nat :=
  [n % 256, n / 256 % 256]

/-- The four bytes of a `uint32_t`, little-endian. -/
def u32le (n : Nat) : List Nat :=
  [n % 256, n / 256 % 256, n / 65536 % 256, n / 16777216 % 256]

/-- The per-symbol records of `writeFrequencyMap`: one byte holding
the symbol value, then its frequency as a `uint32_t`. -/
def writeEntries : List (Nat × Nat) → List Nat
  | [] => []
  | p :: ps => p.1 % 256 :: (u32le p.2 ++ writeEntries ps)

/-- `writeFrequencyMap`: the entry count as a `uint16_t`, then the
entries in the map's iteration order. -/
def writeFrequencyMap (m : List (Nat × Nat)) : List Nat :=
  u16le m.length ++ writeEntries m

/-- Read one byte.  On an exhausted stream the C++ `ifstream::read`
fails silently and leaves the destination uninitialized; that
unreachable case is modelled as the value 0. -/
def readByte : List Nat → Nat × List Nat
  | b :: rest => (b, rest)
  | [] => (0, [])

/-- Read a `uint16_t` (little-endian); a short read is modelled as 0
on an exhausted stream, as in `readByte`. -/
def readU16 : List Nat → Nat × List Nat
  | b0 :: b1 :: rest => (b0 + 256 * b1, rest)
  | _ => (0, [])

/-- Read a `uint32_t` (little-endian); short reads as in `readU16`. -/
def readU32 : List Nat → Nat × List Nat
  | b0 :: b1 :: b2 :: b3 :: rest =>
      (b0 + 256 * b1 + 65536 * b2 + 16777216 * b3, rest)
  | _ => (0, [])

/-- `freqMap[ch] = freq` on the association list, keeping existing
entries in place and appending new ones, so the model list records the
entries in insertion (file) order.  The C++ `unordered_map` gives no
such guarantee about its iteration order (libstdc++ iterates roughly
in reverse insertion order), so nothing may rely on the rebuilt map
iterating like the compress-side map; the C3 theorem exhibits the
consequence. -/
def setAssoc : List (Nat × Nat) → Nat → Nat → List (Nat × Nat)
  | [], c, f => [(c, f)]
  | (k, v) :: rest, c, f =>
      if k = c then (k, f) :: rest else (k, v) :: setAssoc rest c f

/-- The entry-reading loop of `readFrequencyMap`. -/
def readEntries : Nat → List (Nat × Nat) → List Nat → List (Nat × Nat) × List Nat
  | 0, acc, bs => (acc, bs)
  | k + 1, acc, bs =>
      let (ch, bs1) := readByte bs
      let (f, bs2) := readU32 bs1
      readEntries k (setAssoc acc ch f) bs2

/-- `readFrequencyMap`: read the `uint16_t` count, then that many
(symbol, frequency) entries.  The returned list holds the parsed
entries in file order; this fixes one determinization of the rebuilt
`unordered_map`'s iteration order, which the C++ source leaves
unspecified and which need not match the compress-side map's order
(see the C3 theorem). -/
def readFrequencyMap (bytes : List Nat) : List (Nat × Nat) × List Nat :=
  let (sz, rest) := readU16 bytes
  readEntries sz [] rest

/-- `bitset<8>(byteString).to_ulong()`: the value of a bit string read
most-significant-bit first. -/
def bitsToByte (bits : List Bool) : Nat :=
  bits.foldl (fun acc b => 2 * acc + b.toNat) 0

/-- The `k`-bit most-significant-bit-first representation of `n`, as
produced by `bitset<k>(n).to_string()`. -/
def natToBits : Nat → Nat → List Bool
  | 0, _ => []
  | k + 1, n => natToBits k (n / 2) ++ [n % 2 == 1]

/-- `bitset<8>(byte).to_string()` for a byte value. -/
def byteBits (n : Nat) : List Bool :=
  natToBits 8 n

/-- The byte-packing loop of `writeEncodedData`: successive 8-bit
chunks, most significant bit first.  The final short-chunk case
matches `bitset<8>` of a short string (value in the low bits); it is
unreachable because the input is always padded to a byte boundary. -/
def packBits : List Bool → List Nat
  | [] => []
  | b0 :: b1 :: b2 :: b3 :: b4 :: b5 :: b6 :: b7 :: rest =>
      bitsToByte [b0, b1, b2, b3, b4, b5, b6, b7] :: packBits rest
  | bs => [bitsToByte bs]

/-- `writeEncodedData`: the padding byte (`8 - L % 8`, replaced by 0
when it equals 8), then the bit string extended with that many zero
bits, packed 8 bits per byte. -/
def writeEncodedData (enc : List Bool) : List Nat :=
  let padding := if 8 - enc.length % 8 = 8 then 0 else 8 - enc.length % 8
  padding :: packBits (enc ++ List.replicate padding false)

/-- The bit strings of all remaining bytes, concatenated. -/
def unpackBits : List Nat → List Bool
  | [] => []
  | b :: bs => byteBits b ++ unpackBits bs

/-- `readEncodedData`: read the padding byte, turn every remaining
byte into its 8-character bit string, and erase the final `padding`
bits when `padding > 0` and the string is non-empty. -/
def readEncodedData (bytes : List Nat) : Nat × List Bool :=
  match bytes with
  | [] => (0, [])
  | p :: rest =>
      let bits := unpackBits rest
      if 0 < p ∧ bits ≠ [] then (p, bits.take (bits.length - p)) else (p, bits)

/-- One step of the decode walk: `'0'` goes left, otherwise right.
Stepping from a leaf reads a null child pointer and then dereferences
it — undefined behaviour, modelled as `none`. -/
def stepBit (cur : Node) (b : Bool) : Option Node :=
  match cur, b with
  | .leaf _ _, _ => none
  | .node _ l _, false => some l
  | .node _ _ r, true => some r

/-- The decode loop of `decompress`: follow one child pointer per bit;
on reaching a leaf emit its character and restart from the root. -/
def decodeBits (root : Node) : Node → List Bool → Option (List Nat)
  | _, [] => some []
  | cur, b :: rest =>
      match stepBit cur b with
      | none => none
      | some (Node.leaf c _) =>
          Option.map (fun out => c :: out) (decodeBits root root rest)
      | some (Node.node f l r) => decodeBits root (Node.node f l r) rest

/-- `compress`, with the file I/O shell abstracted to byte lists:
frequency map, tree, codes, encoded bits, then the serialized
container. -/
def compress (text : List Nat) : Option (List Nat) :=
  let freqMap := buildFrequencyMap text
  match buildHuffmanTree freqMap with
  | none => none
  | some root =>
      let codes := generateCodes root []
      let enc := encodeText text codes
      some (writeFrequencyMap freqMap ++ writeEncodedData enc)

/-- `decompress`: read the frequency map, rebuild the tree from it,
read the padded bit stream, and decode.  The rebuilt map is handed to
`buildHuffmanTree` in file order — one fixed determinization of the
unspecified `unordered_map` iteration order; the real order may
differ from the compress-side one, which for equal frequencies
changes the rebuilt tree (see the C3 theorem). -/
def decompress (bytes : List Nat) : Option (List Nat) :=
  let (freqMap, rest) := readFrequencyMap bytes
  match buildHuffmanTree freqMap with
  | none => none
  | some root => decodeBits root root (readEncodedData rest).2

end Huffman

namespace Huffman

/-! ### Frequency-map lemmas -/

theorem bumpFreq_keys (m : List (Nat × Nat)) (c : Nat) :
    (bumpFreq m c).map Prod.fst =
      if c ∈ m.map Prod.fst then m.map Prod.fst else m.map Prod.fst ++ [c] := by
  induction m with
  | nil => simp [bumpFreq]
  | cons p rest ih =>
      obtain ⟨k, v⟩ := p
      by_cases h : k = c
      · subst h
        simp [bumpFreq]
      · have hne : ¬ c = k := fun hc => h hc.symm
        by_cases hm : c ∈ rest.map Prod.fst <;>
          simp [bumpFreq, h, ih, hm, hne]

theorem mem_bumpFreq_keys (m : List (Nat × Nat)) (c a : Nat) :
    a ∈ (bumpFreq m c).map Prod.fst ↔ a ∈ m.map Prod.fst ∨ a = c := by
  rw [bumpFreq_keys]
  by_cases hm : c ∈ m.map Prod.fst
  · simp only [if_pos hm]
    exact ⟨Or.inl, fun h => h.elim id fun e => e ▸ hm⟩
  · simp [if_neg hm]

theorem bumpFreq_nodup (m : List (Nat × Nat)) (c : Nat)
    (h : (m.map Prod.fst).Nodup) : ((bumpFreq m c).map Prod.fst).Nodup := by
  rw [bumpFreq_keys]
  by_cases hm : c ∈ m.map Prod.fst
  · simpa [if_pos hm]
  · simp only [if_neg hm]
    rw [List.nodup_append]
    refine ⟨h, List.nodup_singleton c, ?_⟩
    intro a ha hc
    rw [List.mem_singleton] at hc
    exact hm (hc ▸ ha)

theorem bumpFreq_pos (m : List (Nat × Nat)) (c : Nat)
    (h : ∀ p ∈ m, 1 ≤ p.2) : ∀ p ∈ bumpFreq m c, 1 ≤ p.2 := by
  induction m with
  | nil =>
      intro p hp
      rw [bumpFreq, List.mem_singleton] at hp
      subst hp
      exact Nat.le_refl 1
  | cons q rest ih =>
      obtain ⟨k, v⟩ := q
      intro p hp
      by_cases hk : k = c
      · rw [bumpFreq, if_pos hk] at hp
        rcases List.mem_cons.mp hp with rfl | hp
        · exact Nat.succ_le_succ (Nat.zero_le v)
        · exact h p (List.mem_cons_of_mem _ hp)
      · rw [bumpFreq, if_neg hk] at hp
        rcases List.mem_cons.mp hp with rfl | hp
        · exact h (k, v) (List.mem_cons_self _ _)
        · exact ih (fun q hq => h q (List.mem_cons_of_mem _ hq)) p hp

theorem bumpFreq_sum (m : List (Nat × Nat)) (c : Nat) :
    ((bumpFreq m c).map Prod.snd).sum = (m.map Prod.snd).sum + 1 := by
  induction m with
  | nil => simp [bumpFreq]
  | cons q rest ih =>
      obtain ⟨k, v⟩ := q
      by_cases h : k = c <;> simp [bumpFreq, h, ih] <;> omega

theorem snd_le_sum (m : List (Nat × Nat)) (p : Nat × Nat) (hp : p ∈ m) :
    p.2 ≤ (m.map Prod.snd).sum := by
  induction m with
  | nil => cases hp
  | cons q rest ih =>
      rcases List.mem_cons.mp hp with rfl | hp
      · simp
      · simp only [List.map_cons, List.sum_cons]
        exact Nat.le_trans (ih hp) (Nat.le_add_left _ _)

theorem foldl_bumpFreq_nodup (text : List Nat) :
    ∀ acc : List (Nat × Nat), (acc.map Prod.fst).Nodup →
      ((text.foldl bumpFreq acc).map Prod.fst).Nodup := by
  induction text with
  | nil => intro acc h; simpa
  | cons c cs ih => intro acc h; exact ih _ (bumpFreq_nodup _ _ h)

theorem foldl_bumpFreq_mem (text : List Nat) :
    ∀ (acc : List (Nat × Nat)) (a : Nat),
      a ∈ (text.foldl bumpFreq acc).map Prod.fst ↔
        a ∈ acc.map Prod.fst ∨ a ∈ text := by
  induction text with
  | nil => intro acc a; simp
  | cons c cs ih =>
      intro acc a
      simp only [List.foldl_cons]
      rw [ih, mem_bumpFreq_keys, List.mem_cons]
      tauto

theorem foldl_bumpFreq_pos (text : List Nat) :
    ∀ acc : List (Nat × Nat), (∀ p ∈ acc, 1 ≤ p.2) →
      ∀ p ∈ text.foldl bumpFreq acc, 1 ≤ p.2 := by
  induction text with
  | nil => intro acc h; exact h
  | cons c cs ih => intro acc h; exact ih _ (bumpFreq_pos _ _ h)

theorem foldl_bumpFreq_sum (text : List Nat) :
    ∀ acc : List (Nat × Nat),
      ((text.foldl bumpFreq acc).map Prod.snd).sum =
        (acc.map Prod.snd).sum + text.length := by
  induction text with
  | nil => intro acc; simp
  | cons c cs ih =>
      intro acc
      simp only [List.foldl_cons, List.length_cons]
      rw [ih, bumpFreq_sum]
      omega

theorem buildFrequencyMap_nodup (text : List Nat) :
    ((buildFrequencyMap text).map Prod.fst).Nodup :=
  foldl_bumpFreq_nodup text [] (by simp)

theorem mem_buildFrequencyMap (text : List Nat) (a : Nat) :
    a ∈ (buildFrequencyMap text).map Prod.fst ↔ a ∈ text := by
  rw [buildFrequencyMap, foldl_bumpFreq_mem]
  simp

theorem buildFrequencyMap_pos (text : List Nat) :
    ∀ p ∈ buildFrequencyMap text, 1 ≤ p.2 :=
  foldl_bumpFreq_pos text [] (by simp)

theorem buildFrequencyMap_sum (text : List Nat) :
    ((buildFrequencyMap text).map Prod.snd).sum = text.length := by
  rw [buildFrequencyMap, foldl_bumpFreq_sum]
  simp

theorem buildFrequencyMap_length_le (text : List Nat)
    (h : ∀ c ∈ text, c < 256) : (buildFrequencyMap text).length ≤ 256 := by
  have hnd := buildFrequencyMap_nodup text
  have hlen : ((buildFrequencyMap text).map Prod.fst).length =
      (buildFrequencyMap text).length := List.length_map _ _
  rw [← hlen, ← List.toFinset_card_of_nodup hnd]
  have hsub : ((buildFrequencyMap text).map Prod.fst).toFinset ⊆
      Finset.range 256 := by
    intro a ha
    rw [List.mem_toFinset] at ha
    rw [Finset.mem_range]
    exact h a ((mem_buildFrequencyMap text a).mp ha)
  calc ((buildFrequencyMap text).map Prod.fst).toFinset.card
      ≤ (Finset.range 256).card := Finset.card_le_card hsub
    _ = 256 := Finset.card_range 256

/-! ### Frequency-table serialization lemmas -/

theorem readU16_u16le (n : Nat) (h : n < 65536) (tail : List Nat) :
    readU16 (u16le n ++ tail) = (n, tail) := by
  simp only [u16le, List.cons_append, List.nil_append, readU16, Prod.mk.injEq]
  exact ⟨by omega, trivial⟩

theorem readU32_u32le (n : Nat) (h : n < 4294967296) (tail : List Nat) :
    readU32 (u32le n ++ tail) = (n, tail) := by
  simp only [u32le, List.cons_append, List.nil_append, readU32, Prod.mk.injEq]
  exact ⟨by omega, trivial⟩

theorem setAssoc_append (acc : List (Nat × Nat)) (c f : Nat)
    (h : c ∉ acc.map Prod.fst) : setAssoc acc c f = acc ++ [(c, f)] := by
  induction acc with
  | nil => rfl
  | cons q rest ih =>
      obtain ⟨k, v⟩ := q
      have hk : ¬ k = c := by
        intro e
        exact h (by simp [e])
      simp only [setAssoc, if_neg hk, List.cons_append]
      rw [ih (fun hc => h (by simp [hc]))]

theorem readEntries_writeEntries (m : List (Nat × Nat)) :
    ∀ (acc : List (Nat × Nat)) (tail : List Nat),
      (m.map Prod.fst).Nodup →
      (∀ p ∈ m, p.1 < 256 ∧ p.2 < 4294967296) →
      (∀ p ∈ m, p.1 ∉ acc.map Prod.fst) →
      readEntries m.length acc (writeEntries m ++ tail) = (acc ++ m, tail) := by
  induction m with
  | nil => intro acc tail _ _ _; simp [writeEntries, readEntries]
  | cons p ps ih =>
      intro acc tail hnd hbound hdis
      obtain ⟨c, f⟩ := p
      have hc : c < 256 := (hbound (c, f) (List.mem_cons_self _ _)).1
      have hf : f < 4294967296 := (hbound (c, f) (List.mem_cons_self _ _)).2
      simp only [writeEntries, List.length_cons, List.cons_append, readEntries,
        readByte]
      rw [List.append_assoc]
      have h32 := readU32_u32le f hf (writeEntries ps ++ tail)
      simp only [h32]
      rw [Nat.mod_eq_of_lt hc]
      rw [setAssoc_append acc c f (hdis (c, f) (List.mem_cons_self _ _))]
      have hnd' : (ps.map Prod.fst).Nodup := by
        simp only [List.map_cons, List.nodup_cons] at hnd
        exact hnd.2
      have hcps : c ∉ ps.map Prod.fst := by
        simp only [List.map_cons, List.nodup_cons] at hnd
        exact hnd.1
      have hdis' : ∀ p ∈ ps, p.1 ∉ (acc ++ [(c, f)]).map Prod.fst := by
        intro q hq
        simp only [List.map_append, List.mem_append, List.map_cons,
          List.map_nil, List.mem_singleton]
        rintro (hin | hq1)
        · exact hdis q (List.mem_cons_of_mem _ hq) hin
        · exact hcps (hq1 ▸ List.mem_map_of_mem Prod.fst hq)
      rw [ih (acc ++ [(c, f)]) tail hnd'
        (fun q hq => hbound q (List.mem_cons_of_mem _ hq)) hdis']
      simp

theorem readFrequencyMap_roundtrip (m : List (Nat × Nat)) (tail : List Nat)
    (hlen : m.length < 65536) (hnd : (m.map Prod.fst).Nodup)
    (hbound : ∀ p ∈ m, p.1 < 256 ∧ p.2 < 4294967296) :
    readFrequencyMap (writeFrequencyMap m ++ tail) = (m, tail) := by
  rw [writeFrequencyMap, List.append_assoc, readFrequencyMap]
  rw [readU16_u16le m.length hlen]
  simpa using readEntries_writeEntries m [] tail hnd hbound (by simp)

/-- Claim C9: the frequency table maps exactly the distinct bytes of
the input, every count is at least 1, the table has at most 256
entries, and the counts sum to the input length. -/
theorem C9_frequency_invariants (text : List Nat) (h : ∀ c ∈ text, c < 256) :
    (∀ a, a ∈ (buildFrequencyMap text).map Prod.fst ↔ a ∈ text) ∧
      (∀ p ∈ buildFrequencyMap text, 1 ≤ p.2) ∧
      (buildFrequencyMap text).length ≤ 256 ∧
      ((buildFrequencyMap text).map Prod.snd).sum = text.length :=
  ⟨fun a => mem_buildFrequencyMap text a, buildFrequencyMap_pos text,
    buildFrequencyMap_length_le text h, buildFrequencyMap_sum text⟩

/-- Witness for C9 at the concrete input `[3, 7, 3]`. -/
theorem C9_frequency_invariants_witness :
    (∀ c ∈ [3, 7, 3], c < 256) ∧
      ((∀ a, a ∈ (buildFrequencyMap [3, 7, 3]).map Prod.fst ↔ a ∈ [3, 7, 3]) ∧
        (∀ p ∈ buildFrequencyMap [3, 7, 3], 1 ≤ p.2) ∧
        (buildFrequencyMap [3, 7, 3]).length ≤ 256 ∧
        ((buildFrequencyMap [3, 7, 3]).map Prod.snd).sum = [3, 7, 3].length) :=
  ⟨by decide, C9_frequency_invariants [3, 7, 3] (by decide)⟩

/-- Claim C3: the spec requires the tree rebuilt in `decompress` to
assign every symbol exactly the same code as the compress tree, with
the same tie-break between equal-frequency nodes on both sides.  The
code does not ensure this: the two `std::unordered_map` instances
iterate in unspecified orders, and the priority queue's pop order
between equal frequencies depends on its insertion order.  Under
libstdc++ (distinct buckets; a new element goes to the head of the
iteration list) a map iterates roughly in reverse insertion order: for
the input "abc" the compress-side map, built in first-occurrence order
a,b,c, iterates and serializes c,b,a, while the decompress-side map,
re-inserted in that file order, iterates a,b,c again.  Feeding
`buildHuffmanTree` the same equal-frequency table in those two orders
yields trees that assign symbol 97 (the byte of the character a) the
codes 0 and 10 respectively, and decoding compress's bit stream for
"abc" with the rebuilt tree outputs "cba", breaking the round trip. -/
theorem C3_tiebreak_not_consistent :
    buildFrequencyMap [97, 98, 99] = [(97, 1), (98, 1), (99, 1)] ∧
      buildHuffmanTree [(99, 1), (98, 1), (97, 1)] =
        some (Node.node 3 (Node.leaf 97 1)
          (Node.node 2 (Node.leaf 99 1) (Node.leaf 98 1))) ∧
      buildHuffmanTree [(97, 1), (98, 1), (99, 1)] =
        some (Node.node 3 (Node.leaf 99 1)
          (Node.node 2 (Node.leaf 97 1) (Node.leaf 98 1))) ∧
      (generateCodes (Node.node 3 (Node.leaf 97 1)
          (Node.node 2 (Node.leaf 99 1) (Node.leaf 98 1))) []).lookup 97 ≠
        (generateCodes (Node.node 3 (Node.leaf 99 1)
          (Node.node 2 (Node.leaf 97 1) (Node.leaf 98 1))) []).lookup 97 ∧
      decodeBits
          (Node.node 3 (Node.leaf 99 1)
            (Node.node 2 (Node.leaf 97 1) (Node.leaf 98 1)))
          (Node.node 3 (Node.leaf 99 1)
            (Node.node 2 (Node.leaf 97 1) (Node.leaf 98 1)))
          (encodeText [97, 98, 99]
            (generateCodes (Node.node 3 (Node.leaf 97 1)
              (Node.node 2 (Node.leaf 99 1) (Node.leaf 98 1))) [])) =
        some [99, 98, 97] := by
  decide

/-! ### Bit-packing lemmas -/

theorem bitsToByte_concat (bs : List Bool) (b : Bool) :
    bitsToByte (bs ++ [b]) = 2 * bitsToByte bs + b.toNat := by
  simp [bitsToByte, List.foldl_append]

theorem natToBits_bitsToByte (bs : List Bool) :
    natToBits bs.length (bitsToByte bs) = bs ∧
      bitsToByte bs < 2 ^ bs.length := by
  induction bs using List.reverseRecOn with
  | nil => exact ⟨rfl, by decide⟩
  | append_singleton ys y ih =>
      obtain ⟨ih1, ih2⟩ := ih
      have hb : bitsToByte (ys ++ [y]) = 2 * bitsToByte ys + y.toNat :=
        bitsToByte_concat ys y
      have hy : y.toNat ≤ 1 := by cases y <;> decide
      have hlen : (ys ++ [y]).length = ys.length + 1 := by simp
      rw [hlen, hb]
      constructor
      · simp only [natToBits]
        have h2 : (2 * bitsToByte ys + y.toNat) / 2 = bitsToByte ys := by
          omega
        have h3 : ((2 * bitsToByte ys + y.toNat) % 2 == 1) = y := by
          cases y
          · simp only [Bool.toNat_false, Nat.add_zero, beq_eq_false_iff_ne,
              ne_eq]
            omega
          · simp only [Bool.toNat_true, beq_iff_eq]
            omega
        rw [h2, h3, ih1]
      · rw [pow_succ]
        omega

theorem byteBits_bitsToByte (bs : List Bool) (h : bs.length = 8) :
    byteBits (bitsToByte bs) = bs := by
  have hrt := natToBits_bitsToByte bs
  rw [byteBits, ← h]
  exact hrt.1

theorem exists_cons_of_len (bs : List Bool) (n : Nat)
    (h : bs.length = n + 1) : ∃ x xs, bs = x :: xs ∧ xs.length = n := by
  cases bs with
  | nil => simp only [List.length_nil] at h; omega
  | cons x xs => exact ⟨x, xs, rfl, by simpa using h⟩

theorem unpackBits_packBits :
    ∀ (n : Nat) (bs : List Bool), bs.length = 8 * n →
      unpackBits (packBits bs) = bs := by
  intro n
  induction n with
  | zero =>
      intro bs h
      have : bs = [] := List.length_eq_zero.mp (by omega)
      subst this
      rfl
  | succ k ih =>
      intro bs h
      obtain ⟨b0, bs, rfl, h1⟩ := exists_cons_of_len bs (8 * k + 7) (by omega)
      obtain ⟨b1, bs, rfl, h2⟩ := exists_cons_of_len bs (8 * k + 6) (by omega)
      obtain ⟨b2, bs, rfl, h3⟩ := exists_cons_of_len bs (8 * k + 5) (by omega)
      obtain ⟨b3, bs, rfl, h4⟩ := exists_cons_of_len bs (8 * k + 4) (by omega)
      obtain ⟨b4, bs, rfl, h5⟩ := exists_cons_of_len bs (8 * k + 3) (by omega)
      obtain ⟨b5, bs, rfl, h6⟩ := exists_cons_of_len bs (8 * k + 2) (by omega)
      obtain ⟨b6, bs, rfl, h7⟩ := exists_cons_of_len bs (8 * k + 1) (by omega)
      obtain ⟨b7, rest, rfl, h8⟩ := exists_cons_of_len bs (8 * k) (by omega)
      have hpack : packBits
          (b0 :: b1 :: b2 :: b3 :: b4 :: b5 :: b6 :: b7 :: rest) =
          bitsToByte [b0, b1, b2, b3, b4, b5, b6, b7] :: packBits rest := rfl
      rw [hpack, unpackBits,
        byteBits_bitsToByte [b0, b1, b2, b3, b4, b5, b6, b7] rfl,
        ih rest h8]
      rfl

theorem padding_eq (L : Nat) :
    (if 8 - L % 8 = 8 then 0 else 8 - L % 8) = (8 - L % 8) % 8 := by
  by_cases h : L % 8 = 0
  · rw [h]
    norm_num
  · have hlt : L % 8 < 8 := Nat.mod_lt _ (by norm_num)
    rw [if_neg (show ¬ 8 - L % 8 = 8 by omega),
      Nat.mod_eq_of_lt (show 8 - L % 8 < 8 by omega)]

theorem pad_to_byte (L : Nat) : ∃ n, L + (8 - L % 8) % 8 = 8 * n := by
  refine ⟨(L + (8 - L % 8) % 8) / 8, ?_⟩
  have : L % 8 < 8 := Nat.mod_lt _ (by norm_num)
  omega

/-- Claim C7: the padding byte written by `writeEncodedData` for a bit
string of length `L` equals `(8 - L % 8) % 8`, and `readEncodedData`
strips exactly that many trailing bits, reproducing the original bit
string (hence its bit count `L`). -/
theorem C7_padding_roundtrip (enc : List Bool) :
    (writeEncodedData enc).head? = some ((8 - enc.length % 8) % 8) ∧
      readEncodedData (writeEncodedData enc) =
        ((8 - enc.length % 8) % 8, enc) := by
  have hif : (if 8 - enc.length % 8 = 8 then 0 else 8 - enc.length % 8) =
      (8 - enc.length % 8) % 8 := padding_eq enc.length
  simp only [writeEncodedData, hif]
  obtain ⟨n, hn⟩ := pad_to_byte enc.length
  have hlen : (enc ++ List.replicate ((8 - enc.length % 8) % 8) false).length
      = 8 * n := by
    simp only [List.length_append, List.length_replicate]
    exact hn
  have hun := unpackBits_packBits n _ hlen
  refine ⟨rfl, ?_⟩
  simp only [readEncodedData, hun]
  by_cases hp : (8 - enc.length % 8) % 8 = 0
  · rw [hp]
    simp
  · have hne : enc ++ List.replicate ((8 - enc.length % 8) % 8) false ≠ [] := by
      intro he
      have hlen0 := congrArg List.length he
      simp only [List.length_append, List.length_replicate,
        List.length_nil] at hlen0
      omega
    rw [if_pos ⟨Nat.pos_of_ne_zero hp, hne⟩]
    have hlen2 : (enc ++ List.replicate ((8 - enc.length % 8) % 8) false).length
        - (8 - enc.length % 8) % 8 = enc.length := by
      simp only [List.length_append, List.length_replicate]
      omega
    rw [hlen2, List.take_left]

/-! ### Priority-queue and tree-builder lemmas -/

theorem popMin_ne_none : ∀ l : List Node, l ≠ [] → ∃ p, popMin l = some p := by
  intro l
  induction l with
  | nil => intro h; exact absurd rfl h
  | cons n ns ih =>
      intro _
      cases ns with
      | nil => exact ⟨(n, []), rfl⟩
      | cons b t =>
          obtain ⟨⟨m, rest⟩, hm⟩ := ih (by simp)
          by_cases hf : n.freq ≤ m.freq
          · exact ⟨(n, b :: t), by simp [popMin, hm, hf]⟩
          · exact ⟨(m, n :: rest), by simp [popMin, hm, hf]⟩

theorem popMin_perm : ∀ (l : List Node) (n : Node) (rest : List Node),
    popMin l = some (n, rest) → l.Perm (n :: rest) := by
  intro l
  induction l with
  | nil => intro n rest h; cases h
  | cons a ns ih =>
      intro n rest h
      cases ns with
      | nil =>
          rw [popMin, Option.some.injEq, Prod.mk.injEq] at h
          obtain ⟨rfl, rfl⟩ := h
          exact List.Perm.refl _
      | cons b t =>
          obtain ⟨⟨m, mrest⟩, hm⟩ := popMin_ne_none (b :: t) (by simp)
          simp only [popMin, hm] at h
          by_cases hf : a.freq ≤ m.freq
          · rw [if_pos hf, Option.some.injEq, Prod.mk.injEq] at h
            obtain ⟨rfl, rfl⟩ := h
            exact List.Perm.refl _
          · rw [if_neg hf, Option.some.injEq, Prod.mk.injEq] at h
            obtain ⟨rfl, rfl⟩ := h
            exact (List.Perm.cons a (ih m mrest hm)).trans
              (List.Perm.swap m a mrest)

theorem popMin_length (l : List Node) (n : Node) (rest : List Node)
    (h : popMin l = some (n, rest)) : l.length = rest.length + 1 := by
  have hp := (popMin_perm l n rest h).length_eq
  simpa using hp

theorem buildLoop_isSome : ∀ (fuel : Nat) (heap : List Node),
    heap ≠ [] → heap.length ≤ fuel + 1 →
      ∃ t, buildLoop fuel heap = some t := by
  intro fuel
  induction fuel with
  | zero =>
      intro heap hne hlen
      cases heap with
      | nil => exact absurd rfl hne
      | cons a ns =>
          cases ns with
          | nil => exact ⟨a, rfl⟩
          | cons b t =>
              simp only [List.length_cons] at hlen
              omega
  | succ k ih =>
      intro heap hne hlen
      cases heap with
      | nil => exact absurd rfl hne
      | cons a ns =>
          cases ns with
          | nil => exact ⟨a, rfl⟩
          | cons b t =>
              obtain ⟨⟨n1, rest1⟩, h1⟩ := popMin_ne_none (a :: b :: t) (by simp)
              have hl1 := popMin_length _ _ _ h1
              have hr1 : rest1 ≠ [] := by
                intro he
                rw [he] at hl1
                simp only [List.length_cons, List.length_nil] at hl1
                omega
              obtain ⟨⟨n2, rest2⟩, h2⟩ := popMin_ne_none rest1 hr1
              have hl2 := popMin_length _ _ _ h2
              have hnewlen :
                  (rest2 ++ [Node.node (n1.freq + n2.freq) n1 n2]).length ≤
                    k + 1 := by
                simp only [List.length_append, List.length_cons,
                  List.length_nil] at hl1 hl2 hlen ⊢
                omega
              obtain ⟨t', ht'⟩ := ih _ (by simp) hnewlen
              refine ⟨t', ?_⟩
              simp only [buildLoop, h1, h2]
              exact ht'

theorem buildLoop_internal : ∀ (fuel : Nat) (heap : List Node) (t : Node),
    2 ≤ heap.length → buildLoop fuel heap = some t →
      t.isInternal = true := by
  intro fuel
  induction fuel with
  | zero =>
      intro heap t hlen h
      cases heap with
      | nil => cases h
      | cons a ns =>
          cases ns with
          | nil => simp only [List.length_cons, List.length_nil] at hlen; omega
          | cons b tl =>
              simp only [buildLoop] at h
              exact Option.noConfusion h
  | succ k ih =>
      intro heap t hlen h
      cases heap with
      | nil => cases h
      | cons a ns =>
          cases ns with
          | nil => simp only [List.length_cons, List.length_nil] at hlen; omega
          | cons b tl =>
              obtain ⟨⟨n1, rest1⟩, h1⟩ := popMin_ne_none (a :: b :: tl) (by simp)
              have hl1 := popMin_length _ _ _ h1
              have hr1 : rest1 ≠ [] := by
                intro he
                rw [he] at hl1
                simp only [List.length_cons, List.length_nil] at hl1
                omega
              obtain ⟨⟨n2, rest2⟩, h2⟩ := popMin_ne_none rest1 hr1
              simp only [buildLoop, h1, h2] at h
              by_cases hr2 : rest2 = []
              · subst hr2
                simp only [List.nil_append, buildLoop, Option.some.injEq] at h
                rw [← h]
                rfl
              · have h2len :
                    2 ≤ (rest2 ++ [Node.node (n1.freq + n2.freq) n1 n2]).length := by
                  have := List.length_pos.mpr hr2
                  simp only [List.length_append, List.length_cons,
                    List.length_nil]
                  omega
                exact ih _ t h2len h

theorem buildHuffmanTree_isSome (m : List (Nat × Nat)) (h : m ≠ []) :
    ∃ t, buildHuffmanTree m = some t := by
  rw [buildHuffmanTree]
  apply buildLoop_isSome
  · simpa using h
  · simp

theorem buildHuffmanTree_internal (m : List (Nat × Nat)) (t : Node)
    (hlen : 2 ≤ m.length) (h : buildHuffmanTree m = some t) :
    t.isInternal = true := by
  rw [buildHuffmanTree] at h
  exact buildLoop_internal m.length _ t (by simpa using hlen) h

theorem buildFrequencyMap_ne_nil (text : List Nat) (h : text ≠ []) :
    buildFrequencyMap text ≠ [] := by
  intro he
  have hsum := buildFrequencyMap_sum text
  rw [he] at hsum
  simp only [List.map_nil, List.sum_nil] at hsum
  exact h (List.eq_nil_of_length_eq_zero (by omega))

theorem compress_eq (text : List Nat) (root : Node)
    (h : buildHuffmanTree (buildFrequencyMap text) = some root) :
    compress text =
      some (writeFrequencyMap (buildFrequencyMap text) ++
        writeEncodedData (encodeText text (generateCodes root []))) := by
  simp only [compress, h]

/-- Claim C8: for a non-empty input, the container is exactly the
2-byte little-endian count of distinct symbols, then for each symbol
one byte with the symbol value (exact, since symbols are bytes)
followed by its 4-byte little-endian frequency, then one padding byte
in `0..7`, then the encoded bits padded with trailing zeros and packed
eight per byte most-significant-bit first (witnessed by the inverse
MSB-first unpacking equation). -/
theorem C8_container_layout (text : List Nat) (hne : text ≠ [])
    (hbyte : ∀ c ∈ text, c < 256) :
    ∃ root, buildHuffmanTree (buildFrequencyMap text) = some root ∧
      (let m := buildFrequencyMap text
       let enc := encodeText text (generateCodes root [])
       let pad := (8 - enc.length % 8) % 8
       compress text =
          some (u16le m.length ++ writeEntries m ++
            pad :: packBits (enc ++ List.replicate pad false)) ∧
        pad ≤ 7 ∧
        (u16le m.length).length = 2 ∧
        (∀ p ∈ m, p.1 % 256 = p.1 ∧ (u32le p.2).length = 4) ∧
        unpackBits (packBits (enc ++ List.replicate pad false)) =
          enc ++ List.replicate pad false) := by
  obtain ⟨root, hroot⟩ :=
    buildHuffmanTree_isSome _ (buildFrequencyMap_ne_nil text hne)
  refine ⟨root, hroot, ?_, ?_, rfl, ?_, ?_⟩
  · rw [compress_eq text root hroot]
    rw [writeFrequencyMap, writeEncodedData]
    rw [padding_eq]
  · omega
  · intro p hp
    refine ⟨Nat.mod_eq_of_lt ?_, rfl⟩
    exact hbyte p.1 ((mem_buildFrequencyMap text p.1).mp
      (List.mem_map_of_mem Prod.fst hp))
  · obtain ⟨n, hn⟩ := pad_to_byte (encodeText text (generateCodes root [])).length
    apply unpackBits_packBits n
    simp only [List.length_append, List.length_replicate]
    exact hn

/-- Witness for C8 at the concrete input `[0, 1]`. -/
theorem C8_container_layout_witness :
    ([0, 1] : List Nat) ≠ [] ∧ (∀ c ∈ [0, 1], c < 256) ∧
      (∃ root, buildHuffmanTree (buildFrequencyMap [0, 1]) = some root ∧
        (let m := buildFrequencyMap [0, 1]
         let enc := encodeText [0, 1] (generateCodes root [])
         let pad := (8 - enc.length % 8) % 8
         compress [0, 1] =
            some (u16le m.length ++ writeEntries m ++
              pad :: packBits (enc ++ List.replicate pad false)) ∧
          pad ≤ 7 ∧
          (u16le m.length).length = 2 ∧
          (∀ p ∈ m, p.1 % 256 = p.1 ∧ (u32le p.2).length = 4) ∧
          unpackBits (packBits (enc ++ List.replicate pad false)) =
            enc ++ List.replicate pad false)) :=
  ⟨by decide, by decide, C8_container_layout [0, 1] (by decide) (by decide)⟩

/-! ### Decode-walk totality -/

theorem decodeBits_total (root : Node) (hroot : root.isInternal = true) :
    ∀ (bits : List Bool) (cur : Node), cur.isInternal = true →
      (decodeBits root cur bits).isSome = true := by
  intro bits
  induction bits with
  | nil => intro cur _; rfl
  | cons b rest ih =>
      intro cur hcur
      cases cur with
      | leaf c f => simp [Node.isInternal] at hcur
      | node f l r =>
          have hs := ih root hroot
          cases b
          · cases l with
            | leaf c fl =>
                simp only [decodeBits, stepBit]
                cases hdec : decodeBits root root rest with
                | none => rw [hdec] at hs; cases hs
                | some out => simp [hdec]
            | node fl ll rl =>
                simp only [decodeBits, stepBit]
                exact ih _ rfl
          · cases r with
            | leaf c fr =>
                simp only [decodeBits, stepBit]
                cases hdec : decodeBits root root rest with
                | none => rw [hdec] at hs; cases hs
                | some out => simp [hdec]
            | node fr lr rr =>
                simp only [decodeBits, stepBit]
                exact ih _ rfl

/-- Claim C10: for a frequency table of at least two entries the built
tree's root is an internal node, and (since in this model each node is
either a leaf or has exactly two non-null children, exactly the two
constructors the C++ code uses) the decode walk that moves to a child
per bit and resets to the root after emitting each leaf never follows
a null child pointer, for any finite bit sequence. -/
theorem C10_decode_never_null (m : List (Nat × Nat)) (h : 2 ≤ m.length) :
    ∃ t, buildHuffmanTree m = some t ∧ t.isInternal = true ∧
      ∀ bits : List Bool, (decodeBits t t bits).isSome = true := by
  obtain ⟨t, ht⟩ := buildHuffmanTree_isSome m (by
    intro he
    rw [he] at h
    simp only [List.length_nil] at h
    omega)
  have hint := buildHuffmanTree_internal m t h ht
  exact ⟨t, ht, hint, fun bits => decodeBits_total t hint bits t hint⟩

/-- Witness for C10 at the concrete table `[(0, 1), (1, 2)]`. -/
theorem C10_decode_never_null_witness :
    2 ≤ ([(0, 1), (1, 2)] : List (Nat × Nat)).length ∧
      (∃ t, buildHuffmanTree [(0, 1), (1, 2)] = some t ∧
        t.isInternal = true ∧
        ∀ bits : List Bool, (decodeBits t t bits).isSome = true) :=
  ⟨by decide, C10_decode_never_null [(0, 1), (1, 2)] (by decide)⟩

/-! ### Leaf-multiset and code-table lemmas -/

theorem leavesOf_append (l1 l2 : List Node) :
    leavesOf (l1 ++ l2) = leavesOf l1 ++ leavesOf l2 := by
  induction l1 with
  | nil => rfl
  | cons n t ih => simp [leavesOf, ih]

theorem leavesOf_perm {l1 l2 : List Node} (h : l1.Perm l2) :
    (leavesOf l1).Perm (leavesOf l2) := by
  induction h with
  | nil => exact List.Perm.refl _
  | cons x _ ih => exact List.Perm.append_left x.leafChars ih
  | swap x y l =>
      show (y.leafChars ++ (x.leafChars ++ leavesOf l)).Perm
        (x.leafChars ++ (y.leafChars ++ leavesOf l))
      rw [← List.append_assoc, ← List.append_assoc]
      exact List.Perm.append_right (leavesOf l) List.perm_append_comm
  | trans _ _ ih1 ih2 => exact ih1.trans ih2

theorem buildLoop_leaves : ∀ (fuel : Nat) (heap : List Node) (t : Node),
    buildLoop fuel heap = some t → (leavesOf heap).Perm t.leafChars := by
  intro fuel
  induction fuel with
  | zero =>
      intro heap t h
      cases heap with
      | nil => cases h
      | cons a ns =>
          cases ns with
          | nil =>
              rw [buildLoop, Option.some.injEq] at h
              subst h
              simp [leavesOf]
          | cons b tl =>
              simp only [buildLoop] at h
              exact Option.noConfusion h
  | succ k ih =>
      intro heap t h
      cases heap with
      | nil => cases h
      | cons a ns =>
          cases ns with
          | nil =>
              rw [buildLoop, Option.some.injEq] at h
              subst h
              simp [leavesOf]
          | cons b tl =>
              obtain ⟨⟨n1, rest1⟩, h1⟩ := popMin_ne_none (a :: b :: tl) (by simp)
              have hl1 := popMin_length _ _ _ h1
              have hr1 : rest1 ≠ [] := by
                intro he
                rw [he] at hl1
                simp only [List.length_cons, List.length_nil] at hl1
                omega
              obtain ⟨⟨n2, rest2⟩, h2⟩ := popMin_ne_none rest1 hr1
              simp only [buildLoop, h1, h2] at h
              have hstep := ih _ t h
              refine List.Perm.trans ?_ hstep
              have hp1 : (leavesOf (a :: b :: tl)).Perm
                  (n1.leafChars ++ leavesOf rest1) :=
                leavesOf_perm (popMin_perm _ _ _ h1)
              have hp2 : (leavesOf rest1).Perm
                  (n2.leafChars ++ leavesOf rest2) :=
                leavesOf_perm (popMin_perm _ _ _ h2)
              have hgoal : (leavesOf (a :: b :: tl)).Perm
                  (n1.leafChars ++ (n2.leafChars ++ leavesOf rest2)) :=
                hp1.trans (List.Perm.append_left n1.leafChars hp2)
              refine hgoal.trans ?_
              rw [leavesOf_append]
              show (n1.leafChars ++ (n2.leafChars ++ leavesOf rest2)).Perm
                (leavesOf rest2 ++ leavesOf [Node.node (n1.freq + n2.freq) n1 n2])
              have hmerged : leavesOf [Node.node (n1.freq + n2.freq) n1 n2] =
                  n1.leafChars ++ n2.leafChars := by
                simp [leavesOf, Node.leafChars]
              rw [hmerged, ← List.append_assoc]
              exact List.perm_append_comm

theorem leavesOf_leaves (m : List (Nat × Nat)) :
    leavesOf (m.map fun p => Node.leaf p.1 p.2) = m.map Prod.fst := by
  induction m with
  | nil => rfl
  | cons p ps ihm => simp [leavesOf, Node.leafChars, ihm]

theorem buildHuffmanTree_leaves (m : List (Nat × Nat)) (t : Node)
    (h : buildHuffmanTree m = some t) :
    t.leafChars.Perm (m.map Prod.fst) := by
  rw [buildHuffmanTree] at h
  have hp := buildLoop_leaves _ _ _ h
  rw [leavesOf_leaves] at hp
  exact hp.symm

theorem generateCodes_shift (t : Node) (path : List Bool) :
    generateCodes t path =
      (generateCodes t []).map fun q => (q.1, path ++ q.2) := by
  induction t generalizing path with
  | leaf c f => simp [generateCodes]
  | node f l r ihl ihr =>
      simp only [generateCodes, List.map_append, List.nil_append]
      rw [ihl (path ++ [false]), ihr (path ++ [true]), ihl [false], ihr [true]]
      simp [List.map_map, Function.comp_def, List.append_assoc]

theorem generateCodes_fst (t : Node) (path : List Bool) :
    (generateCodes t path).map Prod.fst = t.leafChars := by
  induction t generalizing path with
  | leaf c f => rfl
  | node f l r ihl ihr => simp [generateCodes, Node.leafChars, ihl, ihr]

theorem generateCodes_pairwise (t : Node) :
    (generateCodes t []).Pairwise
      (fun a b => ¬ a.2 <+: b.2 ∧ ¬ b.2 <+: a.2) := by
  induction t with
  | leaf c f => simp [generateCodes]
  | node f l r ihl ihr =>
      simp only [generateCodes, List.nil_append]
      rw [generateCodes_shift l [false], generateCodes_shift r [true],
        List.pairwise_append]
      refine ⟨?_, ?_, ?_⟩
      · rw [List.pairwise_map]
        refine List.Pairwise.imp ?_ ihl
        intro a b hab
        simp only [List.singleton_append, List.cons_prefix_cons, true_and]
        exact ⟨fun hp => hab.1 hp, fun hp => hab.2 hp⟩
      · rw [List.pairwise_map]
        refine List.Pairwise.imp ?_ ihr
        intro a b hab
        simp only [List.singleton_append, List.cons_prefix_cons, true_and]
        exact ⟨fun hp => hab.1 hp, fun hp => hab.2 hp⟩
      · intro a ha b hb
        obtain ⟨qa, _, rfl⟩ := List.mem_map.mp ha
        obtain ⟨qb, _, rfl⟩ := List.mem_map.mp hb
        simp only [List.singleton_append, List.cons_prefix_cons]
        constructor
        · intro hp
          exact Bool.noConfusion hp.1
        · intro hp
          exact Bool.noConfusion hp.1

theorem generateCodes_length_pos (f : Nat) (l r : Node) :
    ∀ q ∈ generateCodes (Node.node f l r) [], 1 ≤ q.2.length := by
  intro q hq
  simp only [generateCodes, List.nil_append] at hq
  rw [generateCodes_shift l [false], generateCodes_shift r [true]] at hq
  rcases List.mem_append.mp hq with hql | hqr
  · obtain ⟨qa, _, rfl⟩ := List.mem_map.mp hql
    simp
  · obtain ⟨qa, _, rfl⟩ := List.mem_map.mp hqr
    simp

/-- Claim C6: for every frequency table with at least two entries (and
distinct symbols, the table invariant), the generated code table is
prefix-free, its symbols are exactly the table's symbols each with
exactly one code, and every code has length at least 1. -/
theorem C6_code_table_valid (m : List (Nat × Nat))
    (hnd : (m.map Prod.fst).Nodup) (hlen : 2 ≤ m.length) :
    ∃ t, buildHuffmanTree m = some t ∧
      ((generateCodes t []).map Prod.fst).Perm (m.map Prod.fst) ∧
      ((generateCodes t []).map Prod.fst).Nodup ∧
      (generateCodes t []).Pairwise
        (fun a b => ¬ a.2 <+: b.2 ∧ ¬ b.2 <+: a.2) ∧
      ∀ q ∈ generateCodes t [], 1 ≤ q.2.length := by
  obtain ⟨t, ht⟩ := buildHuffmanTree_isSome m (by
    intro he
    rw [he] at hlen
    simp only [List.length_nil] at hlen
    omega)
  have hperm : ((generateCodes t []).map Prod.fst).Perm (m.map Prod.fst) := by
    rw [generateCodes_fst]
    exact buildHuffmanTree_leaves m t ht
  refine ⟨t, ht, hperm, (hperm.nodup_iff).mpr hnd, generateCodes_pairwise t, ?_⟩
  have hint := buildHuffmanTree_internal m t hlen ht
  cases t with
  | leaf c f => simp [Node.isInternal] at hint
  | node f l r => exact generateCodes_length_pos f l r

/-- Witness for C6 at the concrete table `[(0, 1), (1, 2)]`. -/
theorem C6_code_table_valid_witness :
    (([(0, 1), (1, 2)] : List (Nat × Nat)).map Prod.fst).Nodup ∧
      2 ≤ ([(0, 1), (1, 2)] : List (Nat × Nat)).length ∧
      (∃ t, buildHuffmanTree [(0, 1), (1, 2)] = some t ∧
        ((generateCodes t []).map Prod.fst).Perm
          (([(0, 1), (1, 2)] : List (Nat × Nat)).map Prod.fst) ∧
        ((generateCodes t []).map Prod.fst).Nodup ∧
        (generateCodes t []).Pairwise
          (fun a b => ¬ a.2 <+: b.2 ∧ ¬ b.2 <+: a.2) ∧
        ∀ q ∈ generateCodes t [], 1 ≤ q.2.length) :=
  ⟨by decide, by decide, C6_code_table_valid [(0, 1), (1, 2)]
    (by decide) (by decide)⟩

/-- Claim C1: the spec demands `decompress(compress(B)) = B` for every
byte buffer `B`, including single-repeated-byte buffers; the code
violates it.  For the buffer of four `'A'` bytes the lone leaf gets
the empty code, compression emits zero data bits, and decompression
returns the empty buffer. -/
theorem C1_roundtrip_fails_on_repeated_byte :
    compress [65, 65, 65, 65] = some [1, 0, 65, 4, 0, 0, 0, 0] ∧
      decompress [1, 0, 65, 4, 0, 0, 0, 0] = some [] := by
  constructor
  · rfl
  · rfl

set_option maxRecDepth 40000 in
/-- Claim C2: for the single-symbol input of 1000 copies of `'A'` the
frequency table does have exactly one entry, but the generated code of
the lone symbol is the empty bit string (length 0, not the required
length at least 1), and the round trip returns the empty buffer
instead of the input. -/
theorem C2_single_symbol_zero_length_code :
    buildFrequencyMap (List.replicate 1000 65) = [(65, 1000)] ∧
      buildHuffmanTree [(65, 1000)] = some (Node.leaf 65 1000) ∧
      generateCodes (Node.leaf 65 1000) [] = [(65, [])] ∧
      compress (List.replicate 1000 65) = some [1, 0, 65, 232, 3, 0, 0, 0] ∧
      decompress [1, 0, 65, 232, 3, 0, 0, 0] = some [] := by
  refine ⟨by decide, rfl, rfl, by decide, rfl⟩

/-- Claim C4: the spec requires compressing an empty buffer to produce
an empty container; instead the code reaches `minHeap.top()` on an
empty priority queue (undefined behaviour, modelled as `none`). -/
theorem C4_empty_input_undefined :
    buildHuffmanTree (buildFrequencyMap []) = none ∧ compress [] = none := by
  exact ⟨rfl, rfl⟩

/-- Claim C5: the spec demands that truncating the final byte of a
valid container makes decompression fail with a typed error; the code
performs no validation at all.  `compress [0, 1]` yields the container
below; with its final byte removed, decompression silently succeeds
and returns the empty buffer. -/
theorem C5_truncation_is_silent :
    compress [0, 1] = some [2, 0, 0, 1, 0, 0, 0, 1, 1, 0, 0, 0, 6, 64] ∧
      decompress [2, 0, 0, 1, 0, 0, 0, 1, 1, 0, 0, 0, 6, 64] = some [0, 1] ∧
      decompress [2, 0, 0, 1, 0, 0, 0, 1, 1, 0, 0, 0, 6] = some [] := by
  exact ⟨rfl, rfl, rfl⟩

end Huffman
